import Mathlib

/-!
Verification of the parallel/concurrent iteration state for block-structured
oop storage (`oopStorageParState.inline.hpp`).

The development has four parts:

1. A sequential trace model of `BasicParState::iterate`, `AlwaysTrueFn`, the
   `ParState` façades and the weak-iteration adapters.  Handlers are modelled
   as state-passing functions `σ → Slot → σ × β`, so that the exact sequence
   of handler invocations is observable through the final state.
2. A fine-grained interleaving machine for the lock-free block-claiming
   protocol (`claim_next_block`): each atomic read and each compare-and-swap
   of the shared cursor is one transition, taken by an arbitrary worker.
3. A fine-grained interleaving machine for the lazy start barrier
   (`ensure_iteration_started`): racing callers each attempt one
   compare-and-swap from the uninitialized cursor to the storage head.
4. A model of the episode lifecycle flag (`_concurrent_iteration_active`)
   toggled by the `BasicParState` constructor and destructor.

Blocks in the claiming machines are identified by their position in the
active list captured at episode start; the C++ cursor is a pointer to a node
of that stable list, which corresponds one-to-one with such a position.
-/

/-- An oop (a reference to a heap object), modelled abstractly. -/
abbrev Oop := Nat

/-- One reference-holding slot.  `none` is the empty/NULL sentinel meaning
the slot is not logically in use. -/
abbrev Slot := Option Oop

/-- A block: a group of slots, the unit of claiming.  `slots` lists the
currently-occupied (allocated) slots in block order; an occupied slot may
still hold the empty sentinel as its value. -/
structure Block where
  slots : List Slot
deriving DecidableEq

/-- The storage object, as far as this core observes it: the active list of
blocks (head first) and the concurrent-iteration-active flag guarded by the
active mutex. -/
structure OopStorage where
  activeList : List Block
  concurrentIterationActive : Bool
deriving DecidableEq

/-- Modelled from the spec: the block-level "visit occupied slots" primitive
(`Block::iterate`, whose body is outside this header).  It applies the
handler to each occupied slot in list order and stops early as soon as the
handler returns `false` — which is why `BasicParState::iterate` wraps its
handler in `AlwaysTrueFn` ("Wrap f in ATF so we can use Block::iterate"). -/
def Block.visit {σ : Type _} (g : σ → Slot → σ × Bool) (st : σ) : List Slot → σ
  | [] => st
  | s :: rest =>
    let r := g st s
    if r.2 then Block.visit g r.1 rest else r.1

/-- Wrapper `AlwaysTrueFn` for the iteration handler; invokes the handler,
ignores its result and returns true (source lines 175–184). -/
def AlwaysTrueFn {σ β : Type _} (f : σ → Slot → σ × β) : σ → Slot → σ × Bool :=
  fun st s => ((f st s).1, true)

/-- Modelled from the spec: the single-worker view of `claim_next_block`
(body outside this header).  The cursor is the list of not-yet-claimed
blocks; a claim pops the head, and the empty list is the end sentinel. -/
def claimNextBlock : List Block → Option Block × List Block
  | [] => (none, [])
  | b :: rest => (some b, rest)

/-- Modelled from the spec: the single-worker view of
`ensure_iteration_started` (body outside this header).  If the cursor is
still uninitialized it captures the storage's current head; otherwise it is
a no-op. -/
def ensureIterationStarted (storage : OopStorage) :
    Option (List Block) → List Block
  | none => storage.activeList
  | some l => l

/-- The claiming loop inside `BasicParState::iterate` (source lines
169–171): repeatedly claim the next block and visit it, until
`claim_next_block` returns the end sentinel.  The two equations are exactly
the two outcomes of `claimNextBlock` on the remaining list. -/
def iterateLoop {σ : Type _} (g : σ → Slot → σ × Bool) : List Block → σ → σ
  | [], st => st
  | b :: rest, st => iterateLoop g rest (Block.visit g st b.slots)

/-- The engine `BasicParState::iterate<is_const>` (source lines 164–172): wrap the
handler in `AlwaysTrueFn`, ensure iteration is started (capturing the head
into the uninitialized cursor), then drain the cursor with the claiming
loop.  `isConst` only selects the constness of the block pointer type in
the source and does not occur in the loop body. -/
def BasicParState.iterate {σ β : Type _} (isConst : Bool) (storage : OopStorage)
    (f : σ → Slot → σ × β) (st : σ) : σ :=
  iterateLoop (AlwaysTrueFn f) (ensureIterationStarted storage none) st

/-- The façade operation `ParState<concurrent, is_const>::iterate` (source lines 196–199):
forwards to `BasicParState::iterate<is_const>`. -/
def ParState.iterate {σ β : Type _} (concurrent isConst : Bool)
    (storage : OopStorage) (f : σ → Slot → σ × β) (st : σ) : σ :=
  BasicParState.iterate isConst storage f st

/-- Modelled from the spec: the `oop_fn` adapter (defined outside this
header), turning a closure object's `do_oop` into a callable handler. -/
def oop_fn {σ : Type _} (cl : σ → Slot → σ) : σ → Slot → σ := cl

/-- Modelled from the spec: the `skip_null_fn` adapter (defined outside
this header).  If the slot holds the empty sentinel neither wrapper nor
wrapped handler does anything; otherwise the slot is forwarded. -/
def skip_null_fn {σ : Type _} (f : σ → Slot → σ) : σ → Slot → σ :=
  fun st s =>
    match s with
    | none => st
    | some x => f st (some x)

/-- Modelled from the spec: the `if_alive_fn` adapter (defined outside this
header).  Empty-sentinel slots are skipped outright; on a non-empty slot the
is-alive predicate is queried on the slot's current value, and the wrapped
handler runs only when the predicate holds. -/
def if_alive_fn {σ : Type _} (isAlive : Oop → Bool) (f : σ → Slot → σ) :
    σ → Slot → σ :=
  fun st s =>
    match s with
    | none => st
    | some x => if isAlive x then f st (some x) else st

/-- Lift a void-returning handler into the shape `iterate` expects. -/
def voidFn {σ : Type _} (g : σ → Slot → σ) : σ → Slot → σ × Unit :=
  fun st s => (g st s, ())

/-- The operation `ParState<false, false>::weak_oops_do(cl)` (source lines 226–229):
iterate with `skip_null_fn(oop_fn(cl))`. -/
def ParStateFF.weak_oops_do {σ : Type _} (storage : OopStorage)
    (cl : σ → Slot → σ) (st : σ) : σ :=
  BasicParState.iterate false storage (voidFn (skip_null_fn (oop_fn cl))) st

/-- The operation `ParState<false, false>::weak_oops_do(is_alive, cl)` (source lines
231–234): iterate with `if_alive_fn(is_alive, oop_fn(cl))`. -/
def ParStateFF.weak_oops_do2 {σ : Type _} (storage : OopStorage)
    (isAlive : Oop → Bool) (cl : σ → Slot → σ) (st : σ) : σ :=
  BasicParState.iterate false storage (voidFn (if_alive_fn isAlive (oop_fn cl))) st

/-- All occupied slots of the storage, in iteration order: the slots of each
block of the active list, head block first. -/
def OopStorage.allSlots (storage : OopStorage) : List Slot :=
  (storage.activeList.map Block.slots).flatten

/-- Sanity: the two equations of `iterateLoop` are exactly the two outcomes
of `claimNextBlock` on the remaining block list. -/
theorem iterateLoop_eq_claim {σ : Type _} (g : σ → Slot → σ × Bool)
    (l : List Block) (st : σ) :
    iterateLoop g l st =
      (match claimNextBlock l with
       | (none, _) => st
       | (some b, rest) => iterateLoop g rest (Block.visit g st b.slots)) := by
  cases l <;> rfl

/-- Under `AlwaysTrueFn`, a block visit never stops early: it folds the
handler over every occupied slot. -/
theorem visit_alwaysTrue {σ β : Type _} (f : σ → Slot → σ × β) (st : σ)
    (slots : List Slot) :
    Block.visit (AlwaysTrueFn f) st slots =
      slots.foldl (fun st s => (f st s).1) st := by
  induction slots generalizing st with
  | nil => rfl
  | cons s rest ih => simp [Block.visit, AlwaysTrueFn, ih]

/-- The claiming loop under `AlwaysTrueFn` folds the handler over the slots
of every block, in list order. -/
theorem iterateLoop_alwaysTrue {σ β : Type _} (f : σ → Slot → σ × β)
    (l : List Block) (st : σ) :
    iterateLoop (AlwaysTrueFn f) l st =
      ((l.map Block.slots).flatten).foldl (fun st s => (f st s).1) st := by
  induction l generalizing st with
  | nil => rfl
  | cons b rest ih =>
    simp [iterateLoop, ih, visit_alwaysTrue, List.foldl_append]

/-- The engine iterate is the fold of the handler over all occupied
slots of all blocks reachable from the captured head, in order. -/
theorem iterate_eq_foldl {σ β : Type _} (isConst : Bool) (storage : OopStorage)
    (f : σ → Slot → σ × β) (st : σ) :
    BasicParState.iterate isConst storage f st =
      storage.allSlots.foldl (fun st s => (f st s).1) st := by
  simp [BasicParState.iterate, ensureIterationStarted, iterateLoop_alwaysTrue,
    OopStorage.allSlots]

/-- Mapping a storage's slot values commutes with flattening out the
occupied slots. -/
theorem allSlots_mapSlots (g : Slot → Slot) (storage : OopStorage) :
    (OopStorage.mk (storage.activeList.map (fun b => Block.mk (b.slots.map g)))
        storage.concurrentIterationActive).allSlots =
      storage.allSlots.map g := by
  simp only [OopStorage.allSlots, List.map_flatten, List.map_map]
  rfl

/-- C2: `iterate(handler)` first ensures iteration is started (capturing the
head into the uninitialized cursor), then drains `claimNextBlock` with the
claiming loop, visiting every claimed block; consequently a single worker on
a non-concurrent episode applies the handler exactly once to every occupied
slot of every block reachable from the captured head, in list order. -/
theorem iterate_visits_all_slots {σ β : Type _} (isConst : Bool)
    (storage : OopStorage) (f : σ → Slot → σ × β) (st : σ) :
    BasicParState.iterate isConst storage f st =
        iterateLoop (AlwaysTrueFn f) (ensureIterationStarted storage none) st ∧
      BasicParState.iterate isConst storage f st =
        storage.allSlots.foldl (fun st s => (f st s).1) st :=
  ⟨rfl, iterate_eq_foldl isConst storage f st⟩

/-- C7: on a non-concurrent, mutable ParState and a block with occupied
slots `[A, empty, B]`, `weak_oops_do(cl)` invokes the closure exactly on the
slots holding `A` and `B`, in list order, and never on the slot holding the
empty sentinel. -/
theorem weak_oops_do_filters_empty {σ : Type _} (cl : σ → Slot → σ) (st : σ)
    (A B : Oop) :
    ParStateFF.weak_oops_do (OopStorage.mk [Block.mk [some A, none, some B]] false)
        cl st =
      cl (cl st (some A)) (some B) := rfl

/-- Replace a slot's value by the empty sentinel when the is-alive predicate
rejects it; keep empty slots empty. -/
def emptyDeadSlot (isAlive : Oop → Bool) : Slot → Slot
  | none => none
  | some x => if isAlive x then some x else none

/-- The storage with every slot value rejected by the is-alive predicate
replaced by the empty sentinel. -/
def OopStorage.emptyDead (isAlive : Oop → Bool) (storage : OopStorage) :
    OopStorage :=
  OopStorage.mk (storage.activeList.map (fun b => Block.mk (b.slots.map (emptyDeadSlot isAlive))))
    storage.concurrentIterationActive

/-- C8: the two-argument `weak_oops_do(is_alive, cl)` skips empty-sentinel
slots, queries the is-alive predicate on each non-empty slot's value,
invokes the closure only where the predicate holds, and on those slots
forwards exactly as the one-argument `weak_oops_do(cl)` does: it coincides
with the one-argument form run on the storage whose dead slots have been
emptied. -/
theorem weak_oops_do2_filters_dead {σ : Type _} (storage : OopStorage)
    (isAlive : Oop → Bool) (cl : σ → Slot → σ) (st : σ) :
    (ParStateFF.weak_oops_do2 storage isAlive cl st =
        ParStateFF.weak_oops_do (storage.emptyDead isAlive) cl st) ∧
      (∀ st' : σ, if_alive_fn isAlive (oop_fn cl) st' none = st') ∧
      (∀ (st' : σ) (x : Oop),
        if_alive_fn isAlive (oop_fn cl) st' (some x) =
          if isAlive x then skip_null_fn (oop_fn cl) st' (some x) else st') := by
  refine ⟨?_, fun st' => rfl, fun st' x => rfl⟩
  rw [ParStateFF.weak_oops_do2, ParStateFF.weak_oops_do, iterate_eq_foldl,
    iterate_eq_foldl, OopStorage.emptyDead, allSlots_mapSlots, List.foldl_map]
  refine List.foldl_ext _ _ _ (fun st' s _ => ?_)
  cases s with
  | none => rfl
  | some x =>
    by_cases h : isAlive x <;>
      simp [voidFn, if_alive_fn, skip_null_fn, oop_fn, emptyDeadSlot, h]

/-- C9: the `is_const` configuration parameter has no effect on control
flow: for every handler, initial state and storage, `iterate` with
`is_const = true` and with `is_const = false` perform the same claims and
handler invocations in the same order, producing the same final state. -/
theorem iterate_const_irrelevant {σ β : Type _} (concurrent : Bool)
    (storage : OopStorage) (f : σ → Slot → σ × β) (st : σ) :
    ParState.iterate concurrent true storage f st =
      ParState.iterate concurrent false storage f st := rfl

/-- C10: `AlwaysTrueFn` invokes the handler, discards its result and always
returns `true` to the block-level visit primitive, so a claimed block's
occupied slots are all visited regardless of what the handler returns: the
visit never stops early. -/
theorem alwaysTrueFn_no_early_stop {σ β : Type _} (f : σ → Slot → σ × β)
    (st : σ) (b : Block) :
    (∀ (st' : σ) (s : Slot), (AlwaysTrueFn f st' s).2 = true) ∧
      Block.visit (AlwaysTrueFn f) st b.slots =
        b.slots.foldl (fun st s => (f st s).1) st :=
  ⟨fun _ _ => rfl, visit_alwaysTrue f st b.slots⟩

/-!
The fine-grained claiming machine.  `claim_next_block`'s loop (modelled from
the spec; its body is outside this header) is: atomically read the shared
cursor; if it is the end sentinel report it and stop; otherwise try to
compare-and-swap the cursor from the read value to its successor, claiming
the read block on success and retrying from the read on failure.  One
transition of the machine is one such atomic read or one atomic
compare-and-swap by an arbitrary worker.  Blocks are positions `0..n-1` in
the captured active list; cursor value `n` is the end sentinel.
-/

/-- Where one worker stands in the claiming protocol: about to read the
cursor, about to compare-and-swap from an observed cursor value, or done
(has seen the end sentinel). -/
inductive WorkerPhase where
  | toRead : WorkerPhase
  | toCAS : Nat → WorkerPhase
  | finished : WorkerPhase
deriving DecidableEq

/-- Shared state of one claiming episode for `W` workers: the shared
cursor, each worker's phase, and the log of successful claims `(worker,
block position)` in the order their compare-and-swaps succeeded. -/
structure ClaimConfig (W : Nat) where
  cursor : Nat
  phase : Fin W → WorkerPhase
  claims : List (Fin W × Nat)

/-- One atomic transition of the claiming protocol with `n` blocks. -/
inductive ClaimStep (W n : Nat) : ClaimConfig W → ClaimConfig W → Prop where
  | read (c : ClaimConfig W) (w : Fin W) (hp : c.phase w = WorkerPhase.toRead)
      (hlt : c.cursor < n) :
      ClaimStep W n c
        { c with phase := Function.update c.phase w (WorkerPhase.toCAS c.cursor) }
  | readEnd (c : ClaimConfig W) (w : Fin W) (hp : c.phase w = WorkerPhase.toRead)
      (hge : n ≤ c.cursor) :
      ClaimStep W n c
        { c with phase := Function.update c.phase w WorkerPhase.finished }
  | casSucc (c : ClaimConfig W) (w : Fin W) (v : Nat)
      (hp : c.phase w = WorkerPhase.toCAS v) (heq : c.cursor = v) :
      ClaimStep W n c
        ⟨v + 1, Function.update c.phase w WorkerPhase.toRead, c.claims ++ [(w, v)]⟩
  | casFail (c : ClaimConfig W) (w : Fin W) (v : Nat)
      (hp : c.phase w = WorkerPhase.toCAS v) (hne : c.cursor ≠ v) :
      ClaimStep W n c { c with phase := Function.update c.phase w WorkerPhase.toRead }

/-- The episode's initial state, right after `ensure_iteration_started` has
captured the head: cursor at the first block, all workers about to read,
nothing claimed. -/
def initClaim (W : Nat) : ClaimConfig W :=
  ⟨0, fun _ => WorkerPhase.toRead, []⟩

/-- Configurations reachable by interleaving atomic claim transitions. -/
def ClaimReachable (W n : Nat) (c : ClaimConfig W) : Prop :=
  Relation.ReflTransGen (ClaimStep W n) (initClaim W) c

/-- Inductive invariant of the claiming machine: the cursor never passes the
end sentinel, the claims log is exactly the block positions below the
cursor in order, every pending compare-and-swap observed a real block, and
a finished worker has seen the cursor at the end sentinel. -/
def ClaimInv (n : Nat) {W : Nat} (c : ClaimConfig W) : Prop :=
  c.cursor ≤ n ∧
    c.claims.map Prod.snd = List.range c.cursor ∧
    (∀ w v, c.phase w = WorkerPhase.toCAS v → v < n) ∧
    (∀ w, c.phase w = WorkerPhase.finished → c.cursor = n)

theorem claimStep_inv {W n : Nat} {c c' : ClaimConfig W} (h : ClaimStep W n c c')
    (hinv : ClaimInv n c) : ClaimInv n c' := by
  obtain ⟨h1, h2, h3, h4⟩ := hinv
  cases h with
  | read w hp hlt =>
    refine ⟨h1, h2, fun w' v' hw' => ?_, fun w' hw' => ?_⟩
    · rcases eq_or_ne w' w with rfl | hne
      · simp only [Function.update_same] at hw'
        cases hw'
        exact hlt
      · simp only [Function.update_noteq hne] at hw'
        exact h3 w' v' hw'
    · rcases eq_or_ne w' w with rfl | hne
      · simp only [Function.update_same] at hw'
        cases hw'
      · simp only [Function.update_noteq hne] at hw'
        exact h4 w' hw'
  | readEnd w hp hge =>
    refine ⟨h1, h2, fun w' v' hw' => ?_, fun w' hw' => ?_⟩
    · rcases eq_or_ne w' w with rfl | hne
      · simp only [Function.update_same] at hw'
        cases hw'
      · simp only [Function.update_noteq hne] at hw'
        exact h3 w' v' hw'
    · exact Nat.le_antisymm h1 hge
  | casSucc w v hp heq =>
    have hv : v < n := h3 w v hp
    refine ⟨hv, ?_, fun w' v' hw' => ?_, fun w' hw' => ?_⟩
    · show (c.claims ++ [(w, v)]).map Prod.snd = List.range (v + 1)
      simp only [List.map_append, List.map_cons, List.map_nil, h2, heq,
        List.range_succ]
    · rcases eq_or_ne w' w with rfl | hne
      · simp only [Function.update_same] at hw'
        cases hw'
      · simp only [Function.update_noteq hne] at hw'
        exact h3 w' v' hw'
    · rcases eq_or_ne w' w with rfl | hne
      · simp only [Function.update_same] at hw'
        cases hw'
      · simp only [Function.update_noteq hne] at hw'
        have hcur := h4 w' hw'
        rw [heq] at hcur
        omega
  | casFail w v hp hne' =>
    refine ⟨h1, h2, fun w' v' hw' => ?_, fun w' hw' => ?_⟩
    · rcases eq_or_ne w' w with rfl | hne
      · simp only [Function.update_same] at hw'
        cases hw'
      · simp only [Function.update_noteq hne] at hw'
        exact h3 w' v' hw'
    · rcases eq_or_ne w' w with rfl | hne
      · simp only [Function.update_same] at hw'
        cases hw'
      · simp only [Function.update_noteq hne] at hw'
        exact h4 w' hw'

theorem claimReachable_inv {W n : Nat} {c : ClaimConfig W}
    (h : ClaimReachable W n c) : ClaimInv n c := by
  induction h with
  | refl =>
    refine ⟨Nat.zero_le n, rfl, fun w v hw => ?_, fun w hw => ?_⟩ <;>
      simp [initClaim] at hw
  | tail hsteps hstep ih => exact claimStep_inv hstep ih

/-- Once the cursor is at the end sentinel, a single further transition
neither moves it nor claims anything. -/
theorem claimStep_end {W n : Nat} {c c' : ClaimConfig W} (hinv : ClaimInv n c)
    (hend : c.cursor = n) (h : ClaimStep W n c c') :
    c'.cursor = n ∧ c'.claims = c.claims := by
  cases h with
  | read w hp hlt => exact ⟨hend, rfl⟩
  | readEnd w hp hge => exact ⟨hend, rfl⟩
  | casSucc w v hp heq =>
    have hv : v < n := hinv.2.2.1 w v hp
    rw [hend] at heq
    exact absurd hv (by omega)
  | casFail w v hp hne => exact ⟨hend, rfl⟩

/-- Once the cursor is at the end sentinel, every subsequent interleaving of
transitions leaves it there and claims no further block: every subsequent
`claim_next_block` returns the end sentinel. -/
theorem claim_end_absorbing {W n : Nat} {c c' : ClaimConfig W}
    (hreach : ClaimReachable W n c) (hend : c.cursor = n)
    (h : Relation.ReflTransGen (ClaimStep W n) c c') :
    c'.cursor = n ∧ c'.claims = c.claims := by
  induction h with
  | refl => exact ⟨hend, rfl⟩
  | tail hsteps hstep ih =>
    obtain ⟨hb, hcl⟩ := ih
    obtain ⟨h1, h2⟩ := claimStep_end (claimReachable_inv (hreach.trans hsteps)) hb hstep
    exact ⟨h1, h2.trans hcl⟩

/-- The block positions claimed by worker `w`, in claim order. -/
def claimsOf {W : Nat} (w : Fin W) (c : ClaimConfig W) : List Nat :=
  (c.claims.filter (fun p => decide (p.1 = w))).map Prod.snd

/-- Splitting a claim log by worker and recombining loses nothing: the
per-worker multisets sum to the multiset of all claimed positions. -/
theorem sum_claims_by_worker {W : Nat} (l : List (Fin W × Nat)) :
    (∑ w : Fin W, (((l.filter (fun p => decide (p.1 = w))).map Prod.snd :
        List Nat) : Multiset Nat)) =
      ((l.map Prod.snd : List Nat) : Multiset Nat) := by
  induction l with
  | nil => simp
  | cons p l ih =>
    have hsplit : ∀ w : Fin W,
        ((((p :: l).filter (fun p' => decide (p'.1 = w))).map Prod.snd :
            List Nat) : Multiset Nat) =
          (if p.1 = w then ({p.2} : Multiset Nat) else 0) +
            (((l.filter (fun p' => decide (p'.1 = w))).map Prod.snd :
                List Nat) : Multiset Nat) := by
      intro w
      rcases eq_or_ne p.1 w with h | h
      · simp [List.filter_cons, h]
      · simp [List.filter_cons, h]
    rw [Finset.sum_congr rfl (fun w _ => hsplit w), Finset.sum_add_distrib, ih,
      Finset.sum_ite_eq]
    simp

/-- C1: for any number `W` of parallel workers draining one shared ParState
via `claim_next_block` until each has seen the end sentinel, under every
interleaving of their atomic reads and compare-and-swaps, the multiset union
of block positions claimed across all workers is exactly the blocks
`0..n-1` of the active list observed at episode start — no block claimed
twice, none skipped. -/
theorem parallel_claims_partition {W n : Nat} (hW : 0 < W) {c : ClaimConfig W}
    (hreach : ClaimReachable W n c)
    (hdone : ∀ w, c.phase w = WorkerPhase.finished) :
    (∑ w : Fin W, ((claimsOf w c : List Nat) : Multiset Nat)) =
        Multiset.range n ∧
      (c.claims.map Prod.snd).Nodup ∧
      c.claims.map Prod.snd = List.range n := by
  obtain ⟨h1, h2, h3, h4⟩ := claimReachable_inv hreach
  have hcur : c.cursor = n := h4 ⟨0, hW⟩ (hdone ⟨0, hW⟩)
  have hmap : c.claims.map Prod.snd = List.range n := by rw [h2, hcur]
  refine ⟨?_, ?_, hmap⟩
  · have hsum := sum_claims_by_worker c.claims
    rw [hmap] at hsum
    simpa [claimsOf, Multiset.range] using hsum
  · rw [hmap]
    exact List.nodup_range n

/-- C3: in every reachable state of the claiming machine the log of
successful claims is exactly the block positions already passed by the
cursor, in order — so each block is handed to exactly one caller exactly
once — and once the cursor has reached the end sentinel, every subsequent
interleaving of claim transitions keeps it there and hands out no further
block: all subsequent calls return the end sentinel. -/
theorem claim_next_block_exactly_once {W n : Nat} {c : ClaimConfig W}
    (hreach : ClaimReachable W n c) :
    c.claims.map Prod.snd = List.range c.cursor ∧
      (c.claims.map Prod.snd).Nodup ∧
      (c.cursor = n → ∀ c', Relation.ReflTransGen (ClaimStep W n) c c' →
        c'.cursor = n ∧ c'.claims = c.claims) := by
  have hinv := claimReachable_inv hreach
  refine ⟨hinv.2.1, ?_, fun hend c' h => claim_end_absorbing hreach hend h⟩
  rw [hinv.2.1]
  exact List.nodup_range c.cursor

/-!
A concrete interleaved run of the claiming machine with one worker and one
block: read the cursor, claim block 0 by compare-and-swap, read the end
sentinel and finish. -/

/-- Demo config: after the worker's first read. -/
def claimCfgB : ClaimConfig 1 :=
  ⟨0, Function.update (initClaim 1).phase 0 (WorkerPhase.toCAS 0), []⟩

/-- Demo config: after the successful compare-and-swap claiming block 0. -/
def claimCfgC : ClaimConfig 1 :=
  ⟨1, Function.update claimCfgB.phase 0 WorkerPhase.toRead, [(0, 0)]⟩

/-- Demo config: after the worker has read the end sentinel. -/
def claimCfgD : ClaimConfig 1 :=
  ⟨1, Function.update claimCfgC.phase 0 WorkerPhase.finished, [(0, 0)]⟩

theorem claimCfgD_reachable : ClaimReachable 1 1 claimCfgD := by
  have s1 : ClaimStep 1 1 (initClaim 1) claimCfgB :=
    ClaimStep.read (initClaim 1) 0 rfl (by decide)
  have s2 : ClaimStep 1 1 claimCfgB claimCfgC :=
    ClaimStep.casSucc claimCfgB 0 0 (by decide) rfl
  have s3 : ClaimStep 1 1 claimCfgC claimCfgD :=
    ClaimStep.readEnd claimCfgC 0 (by decide) (by decide)
  exact Relation.ReflTransGen.tail
    (Relation.ReflTransGen.tail
      (Relation.ReflTransGen.tail Relation.ReflTransGen.refl s1) s2) s3

theorem parallel_claims_partition_witness :
    claimCfgD.claims.map Prod.snd = List.range 1 :=
  (parallel_claims_partition Nat.one_pos claimCfgD_reachable (by decide)).2.2

theorem claim_next_block_exactly_once_witness :
    claimCfgD.claims.map Prod.snd = List.range claimCfgD.cursor ∧
      (claimCfgD.claims.map Prod.snd).Nodup :=
  ⟨(claim_next_block_exactly_once claimCfgD_reachable).1,
    (claim_next_block_exactly_once claimCfgD_reachable).2.1⟩

/-!
The lazy start barrier.  `ensure_iteration_started` (modelled from the
spec; its body is outside this header) atomically transitions the shared
cursor from "uninitialized" to the storage's current head with one
compare-and-swap, so that of any set of racing callers exactly one performs
the head capture and the others observe the cursor already initialized and
no-op.  One transition of the machine is one caller's atomic
compare-and-swap attempt; `head` is the storage's head observed at episode
start. -/

/-- Where one racing caller of `ensure_iteration_started` stands: not yet
invoked, returned as the winner that performed the head capture, or
returned having observed the cursor already initialized (a no-op). -/
inductive CallerPhase where
  | pending : CallerPhase
  | won : CallerPhase
  | lost : CallerPhase
deriving DecidableEq

/-- Shared state of the start barrier for `E` racing callers: the shared
cursor cell (`none` is "uninitialized") and each caller's phase. -/
structure StartConfig (E : Nat) where
  cell : Option Nat
  callers : Fin E → CallerPhase

/-- One atomic compare-and-swap attempt on the uninitialized cursor: if the
cell is still uninitialized the caller installs the head and wins;
otherwise the cell is already initialized and the caller no-ops. -/
inductive StartStep (E head : Nat) : StartConfig E → StartConfig E → Prop where
  | casWin (c : StartConfig E) (w : Fin E) (hp : c.callers w = CallerPhase.pending)
      (hc : c.cell = none) :
      StartStep E head c ⟨some head, Function.update c.callers w CallerPhase.won⟩
  | casLose (c : StartConfig E) (w : Fin E) (hp : c.callers w = CallerPhase.pending)
      (v : Nat) (hc : c.cell = some v) :
      StartStep E head c { c with callers := Function.update c.callers w CallerPhase.lost }

/-- Before any caller has invoked `ensure_iteration_started`: the cursor is
uninitialized and every caller is pending. -/
def initStart (E : Nat) : StartConfig E :=
  ⟨none, fun _ => CallerPhase.pending⟩

/-- Configurations reachable by interleaving start-barrier transitions. -/
def StartReachable (E head : Nat) (c : StartConfig E) : Prop :=
  Relation.ReflTransGen (StartStep E head) (initStart E) c

/-- Inductive invariant of the start barrier: either nothing happened yet
(cell uninitialized, everyone pending), or the cell holds exactly the
captured head and exactly one caller won the capture. -/
def StartInv (E head : Nat) (c : StartConfig E) : Prop :=
  (c.cell = none ∧ ∀ w, c.callers w = CallerPhase.pending) ∨
    (c.cell = some head ∧ ∃ w, c.callers w = CallerPhase.won ∧
      ∀ w', c.callers w' = CallerPhase.won → w' = w)

theorem startStep_inv {E head : Nat} {c c' : StartConfig E}
    (h : StartStep E head c c') (hinv : StartInv E head c) :
    StartInv E head c' := by
  cases h with
  | casWin w hp hc =>
    refine Or.inr ⟨rfl, w, by simp, fun w' hw' => ?_⟩
    rcases eq_or_ne w' w with rfl | hne
    · rfl
    · simp only [Function.update_noteq hne] at hw'
      rcases hinv with ⟨-, hall⟩ | ⟨hcell, -⟩
      · exact absurd hw' (by simp [hall w'])
      · rw [hc] at hcell
        cases hcell
  | casLose w hp v hc =>
    rcases hinv with ⟨hcell, -⟩ | ⟨hcell, w0, hw0, huniq⟩
    · rw [hcell] at hc
      cases hc
    · refine Or.inr ⟨hcell, w0, ?_, fun w' hw' => ?_⟩
      · rcases eq_or_ne w0 w with rfl | hne
        · rw [hp] at hw0
          cases hw0
        · simp only [Function.update_noteq hne]
          exact hw0
      · rcases eq_or_ne w' w with rfl | hne
        · simp only [Function.update_same] at hw'
          cases hw'
        · simp only [Function.update_noteq hne] at hw'
          exact huniq w' hw'

theorem startReachable_inv {E head : Nat} {c : StartConfig E}
    (h : StartReachable E head c) : StartInv E head c := by
  induction h with
  | refl => exact Or.inl ⟨rfl, fun w => rfl⟩
  | tail hsteps hstep ih => exact startStep_inv hstep ih

/-- Once the cursor cell is initialized, no transition ever changes it
again. -/
theorem start_cell_stable {E head : Nat} {c c' : StartConfig E} (v : Nat)
    (hcell : c.cell = some v)
    (h : Relation.ReflTransGen (StartStep E head) c c') : c'.cell = some v := by
  induction h with
  | refl => exact hcell
  | tail hsteps hstep ih =>
    cases hstep with
    | casWin w hp hc => rw [hc] at ih; cases ih
    | casLose w hp v' hc => exact ih

/-- C4: `ensure_iteration_started` is an idempotent single-winner barrier:
whatever the interleaving of racing callers, once every caller has invoked
it, the shared cursor holds the storage head captured exactly once, exactly
one caller performed the capture, all others were no-ops, and every further
transition leaves the captured head in place, so every worker observes the
same starting block. -/
theorem ensure_iteration_started_single_winner {E head : Nat} (hE : 0 < E)
    {c : StartConfig E} (hreach : StartReachable E head c)
    (hdone : ∀ w, c.callers w ≠ CallerPhase.pending) :
    c.cell = some head ∧
      (∃ w, c.callers w = CallerPhase.won ∧
        ∀ w', c.callers w' = CallerPhase.won → w' = w) ∧
      (∀ c', Relation.ReflTransGen (StartStep E head) c c' →
        c'.cell = some head) := by
  rcases startReachable_inv hreach with ⟨-, hall⟩ | ⟨hcell, hwin⟩
  · exact absurd (hall ⟨0, hE⟩) (hdone ⟨0, hE⟩)
  · exact ⟨hcell, hwin, fun c' h => start_cell_stable head hcell h⟩

/-!
A concrete run of the start barrier with two racing callers and head block
7: caller 0 wins the compare-and-swap, caller 1 then observes the
initialized cursor and no-ops. -/

/-- Demo config: after caller 0 won the capture. -/
def startCfgB : StartConfig 2 :=
  ⟨some 7, Function.update (initStart 2).callers 0 CallerPhase.won⟩

/-- Demo config: after caller 1 also invoked the barrier and lost. -/
def startCfgC : StartConfig 2 :=
  ⟨some 7, Function.update startCfgB.callers 1 CallerPhase.lost⟩

theorem startCfgC_reachable : StartReachable 2 7 startCfgC := by
  have s1 : StartStep 2 7 (initStart 2) startCfgB :=
    StartStep.casWin (initStart 2) 0 rfl rfl
  have s2 : StartStep 2 7 startCfgB startCfgC :=
    StartStep.casLose startCfgB 1 (by decide) 7 rfl
  exact Relation.ReflTransGen.tail
    (Relation.ReflTransGen.tail Relation.ReflTransGen.refl s1) s2

theorem ensure_iteration_started_single_winner_witness :
    startCfgC.cell = some 7 ∧
      startCfgC.callers 0 = CallerPhase.won ∧
      startCfgC.callers 1 = CallerPhase.lost :=
  ⟨(ensure_iteration_started_single_winner (by decide) startCfgC_reachable
      (by decide)).1, by decide, by decide⟩

/-!
Episode lifecycle.  The `BasicParState` constructor, destructor and
`update_iteration_state` bodies are outside this header; they are modelled
from the spec.  For a concurrent episode, construction takes the active
mutex, asserts no other concurrent episode is active on the storage, sets
the concurrent-iteration-active flag and releases the mutex; destruction
symmetrically clears the flag.  The assertion failure (the debug-build
precondition violation) is modelled as `none`. -/

/-- Modelled from the spec: `update_iteration_state(value)` — under the
active mutex, set the storage's concurrent-iteration-active flag when the
episode is concurrent; a no-op for a non-concurrent episode. -/
def update_iteration_state (concurrent : Bool) (value : Bool)
    (storage : OopStorage) : OopStorage :=
  if concurrent then
    OopStorage.mk storage.activeList value
  else storage

/-- Modelled from the spec: `BasicParState::BasicParState(storage,
concurrent)` — for a concurrent episode, assert under the active mutex that
no other concurrent episode is active (`none` is the tripped assertion) and
publish concurrent-iteration-active = true; a non-concurrent episode leaves
the storage untouched. -/
def constructBasicParState (concurrent : Bool) (storage : OopStorage) :
    Option OopStorage :=
  if concurrent then
    if storage.concurrentIterationActive then none
    else some (update_iteration_state concurrent true storage)
  else some storage

/-- Modelled from the spec: `BasicParState::~BasicParState()` — for a
concurrent episode, clear concurrent-iteration-active under the active
mutex; a no-op otherwise. -/
def destroyBasicParState (concurrent : Bool) (storage : OopStorage) :
    OopStorage :=
  update_iteration_state concurrent false storage

/-- Modelled from the spec: empty-block reclamation is permitted exactly
while no concurrent iteration is active; the flag check is made under the
same active mutex. -/
def canDeleteEmptyBlocks (storage : OopStorage) : Bool :=
  !storage.concurrentIterationActive

/-- C5: constructing a second concurrent `BasicParState` on a storage while
another concurrent episode is live — that is, after a first concurrent
construction succeeded and before its destruction — trips the
precondition-violation assertion: at most one concurrent ParState may be
live per storage object at a time. -/
theorem second_concurrent_episode_asserts (storage storage' : OopStorage)
    (hfirst : constructBasicParState true storage = some storage') :
    constructBasicParState true storage' = none := by
  by_cases h : storage.concurrentIterationActive
  · simp [constructBasicParState, h] at hfirst
  · simp [constructBasicParState, update_iteration_state, h] at hfirst
    simp [constructBasicParState, ← hfirst]

theorem second_concurrent_episode_asserts_witness :
    constructBasicParState true (OopStorage.mk [] false) =
        some (OopStorage.mk [] true) ∧
      constructBasicParState true (OopStorage.mk [] true) = none :=
  ⟨by decide, second_concurrent_episode_asserts (OopStorage.mk [] false)
    (OopStorage.mk [] true) (by decide)⟩

/-- C6: constructing a concurrent `BasicParState` sets the storage's
concurrent-iteration-active flag and changes nothing else — no block or
slot of the active list is touched — and while it is live, empty-block
reclamation is disabled; destroying it symmetrically clears the flag,
again leaving the active list untouched, and this is what re-enables
empty-block reclamation. -/
theorem concurrent_episode_flag_frame (storage storage' : OopStorage)
    (hidle : storage.concurrentIterationActive = false)
    (hctor : constructBasicParState true storage = some storage') :
    storage'.concurrentIterationActive = true ∧
      storage'.activeList = storage.activeList ∧
      canDeleteEmptyBlocks storage' = false ∧
      (destroyBasicParState true storage').concurrentIterationActive = false ∧
      (destroyBasicParState true storage').activeList = storage.activeList ∧
      canDeleteEmptyBlocks (destroyBasicParState true storage') = true := by
  simp [constructBasicParState, update_iteration_state, hidle] at hctor
  subst hctor
  simp [destroyBasicParState, update_iteration_state, canDeleteEmptyBlocks]

theorem concurrent_episode_flag_frame_witness :
    (OopStorage.mk [Block.mk [some 5]] true).concurrentIterationActive = true ∧
      (OopStorage.mk [Block.mk [some 5]] true).activeList =
        (OopStorage.mk [Block.mk [some 5]] false).activeList ∧
      canDeleteEmptyBlocks (OopStorage.mk [Block.mk [some 5]] true) = false ∧
      (destroyBasicParState true
        (OopStorage.mk [Block.mk [some 5]] true)).concurrentIterationActive = false ∧
      (destroyBasicParState true
        (OopStorage.mk [Block.mk [some 5]] true)).activeList =
        (OopStorage.mk [Block.mk [some 5]] false).activeList ∧
      canDeleteEmptyBlocks (destroyBasicParState true
        (OopStorage.mk [Block.mk [some 5]] true)) = true :=
  concurrent_episode_flag_frame (OopStorage.mk [Block.mk [some 5]] false)
    (OopStorage.mk [Block.mk [some 5]] true) rfl (by decide)
